import Mathlib

/-!
Shallow embedding of src/memset.c.

Memory is a flat byte-addressed store, a function from addresses to byte
values.  Each filler is embedded as the ordered list of single-byte stores
it performs, paired with its returned pointer; a word-sized store is
decomposed into its little-endian byte stores (every word stored by the
code has all byte lanes equal, so endianness does not affect any statement
below).  Machine integers are Nat with explicit reduction modulo a power of
two: the parameter w is the bit width of size_t, and wordsize is the value
of the C macro WORDSIZE in bits.  The C expression masking an int c with
0xff on a two's-complement machine yields c modulo 256, i.e. Int.emod c 256.
Loops whose counter is not structurally decreasing are embedded with an
explicit iteration-count argument large enough that the loop always exits
through its own guard; lemmas below establish the values actually reached.
-/

def Mem : Type := Nat → Nat

def writeByte (m : Mem) (a v : Nat) : Mem := fun b => if b = a then v else m b

def applyWrites (m : Mem) : List (Nat × Nat) → Mem
  | [] => m
  | (a, v) :: t => applyWrites (writeByte m a v) t

/-- Value of the C expression masking int c with 0xff (two's complement). -/
def mask8 (c : Int) : Nat := (c % 256).toNat

/-- Trace of a loop storing n bytes of value x at consecutive addresses
from p, i.e. of while (n--) *p++ = x. -/
def byteStores (p x : Nat) : Nat → List (Nat × Nat)
  | 0 => []
  | n + 1 => (p, x) :: byteStores (p + 1) x n

/-- Byte stores performed by one W-byte word store of value x at address p,
little-endian. -/
def wordWrite (p W x : Nat) : List (Nat × Nat) :=
  (List.range W).map fun j => (p + j, (x >>> (8 * j)) % 256)

/-- Trace of while (n--) { store word x at p; p += W; }. -/
def wordStores (p W x : Nat) : Nat → List (Nat × Nat)
  | 0 => []
  | n + 1 => wordWrite p W x ++ wordStores (p + W) W x n

/-- void* bytewise_memset(void* s, int c, size_t sz), lines 35-46. -/
def bytewise_memset (s : Nat) (c : Int) (sz : Nat) : List (Nat × Nat) × Nat :=
  (byteStores s (mask8 c) sz, s)

/-- The two fixed shift-or steps building the 32-bit pattern word from c,
lines 57-61: x = c and 0xff; x |= x << 8; x |= x << 16; on uint32_t. -/
def pat32 (c : Int) : Nat :=
  let x0 := mask8 c
  let x1 := (x0 ||| ((x0 <<< 8) % 2 ^ 32)) % 2 ^ 32
  (x1 ||| ((x1 <<< 16) % 2 ^ 32)) % 2 ^ 32

/-- void* wordwise_32_memset(void* s, int c, size_t sz), lines 53-77.
The assert on line 71 is modelled as returning none when it fires. -/
def wordwise_32_memset (s : Nat) (c : Int) (sz : Nat) :
    Option (List (Nat × Nat) × Nat) :=
  if sz % 4 = 0 then some (wordStores s 4 (pat32 c) (sz >>> 2), s) else none

/-- Body of for (i = 3; (1 shl i) < wordsize; ++i) x |= x << (1 shl i);
lines 93-94, on a wordsize-bit unsigned integer.  The first argument is an
iteration bound; the loop always exits through its guard before the bound
is reached (see patLoop lemmas below). -/
def patLoop (wordsize : Nat) : Nat → Nat → Nat → Nat × Nat
  | 0, x, i => (x, i)
  | fuel + 1, x, i =>
    if 2 ^ i < wordsize then
      patLoop wordsize fuel ((x ||| ((x <<< 2 ^ i) % 2 ^ wordsize)) % 2 ^ wordsize)
        (i + 1)
    else (x, i)

/-- The pattern word and final loop index produced by lines 93-95 starting
from x and i. -/
def patWord (wordsize x i : Nat) : Nat × Nat := patLoop wordsize wordsize x i

/-- void* wordwise_memset(void* s, int c, size_t sz), lines 86-109.
The assert on line 103 is modelled as returning none when it fires. -/
def wordwise_memset (wordsize s : Nat) (c : Int) (sz : Nat) :
    Option (List (Nat × Nat) × Nat) :=
  let xi := patWord wordsize (mask8 c) 3
  let bpw := 2 ^ (xi.2 - 3)
  if sz % bpw = 0 then some (wordStores s bpw xi.1 (sz >>> (xi.2 - 3)), s)
  else none

/-- Prologue loop while ((pp mod W not zero) and sz--) *pp++ = xx;
lines 150-151 and 197-198.  Returns the trace, the final pointer and the
final value of the size_t counter sz.  The and operator short-circuits: sz
is post-decremented only when the pointer is misaligned, so when the byte
count runs out before alignment is reached the counter wraps to 2 pow w - 1. -/
def prologue (w W pp xx : Nat) : Nat → List (Nat × Nat) × Nat × Nat
  | 0 => if pp % W = 0 then ([], pp, 0) else ([], pp, 2 ^ w - 1)
  | n + 1 =>
    if pp % W = 0 then ([], pp, n + 1)
    else
      let r := prologue w W (pp + 1) xx n
      ((pp, xx) :: r.1, r.2)

/-- void* wordwise_32_unaligned_memset(void* s, int c, size_t sz),
lines 140-176: prologue, tail = sz and 3, pattern word, sz >>= 2, word-wise
body, byte-wise epilogue of tail bytes. -/
def wordwise_32_unaligned_memset (w s : Nat) (c : Int) (sz : Nat) :
    List (Nat × Nat) × Nat :=
  let xx := mask8 c
  let pr := prologue w 4 s xx sz
  let tail := pr.2.2 % 4
  let sz2 := pr.2.2 >>> 2
  (pr.1 ++ wordStores pr.2.1 4 (pat32 c) sz2 ++
    byteStores (pr.2.1 + 4 * sz2) xx tail, s)

/-- void* wordwise_unaligned_memset(void* s, int c, size_t sz),
lines 183-213: generic pattern word, prologue, tail = sz and (bpw - 1),
sz >>= i - 3, word-wise body, byte-wise epilogue. -/
def wordwise_unaligned_memset (w wordsize s : Nat) (c : Int) (sz : Nat) :
    List (Nat × Nat) × Nat :=
  let xi := patWord wordsize (mask8 c) 3
  let bpw := 2 ^ (xi.2 - 3)
  let xx := mask8 c
  let pr := prologue w bpw s xx sz
  let tail := pr.2.2 % bpw
  let sz2 := pr.2.2 >>> (xi.2 - 3)
  (pr.1 ++ wordStores pr.2.1 bpw xi.1 sz2 ++
    byteStores (pr.2.1 + bpw * sz2) xx tail, s)

/-- Signed value of a stored byte, as read back through the char type when
the C code compares buffer bytes, line 244. -/
def charVal (b : Nat) : Int := if b < 128 then (b : Int) else (b : Int) - 256

/-- Increment of a signed 8-bit char, line 241: 127 wraps to -128. -/
def charSucc (x : Int) : Int := if x = 127 then -128 else x + 1

/-- Scan loop of check_memset, lines 243-245, counted formulation of
for (i; i < stop; ++i) if (buffer[i] != set) return i: first index at
which the byte read back differs from set, scanning n indices from i. -/
def scanAux (m : Mem) (set : Int) : Nat → Nat → Option Nat
  | 0, _ => none
  | n + 1, i => if charVal (m i) ≠ set then some i else scanAux m set n (i + 1)

def scanFirst (m : Mem) (set : Int) (i stop : Nat) : Option Nat :=
  scanAux m set (stop - i) i

/-- Outer loop of check_memset, lines 241-246, over the signed char
counter set, guarded by (unsigned int)set <= 0xff.  Also returns the list
of set values for which the fill function was invoked.  The iteration
bound 129 is enough for the loop to exit through its own guard. -/
def checkAux (f : Nat → Int → Nat → Mem → Mem) (u : Nat) :
    Nat → Mem → Int → Nat × List Int
  | 0, _, _ => (0, [])
  | fuel + 1, m, set =>
    if ((set % 4294967296).toNat ≤ 255) then
      let m1 := f u set (4096 - 2 * u) m
      match scanFirst m1 set u (4096 - 2 * u) with
      | some i => (i + 1, [set])
      | none =>
        let r := checkAux f u fuel m1 (charSucc set)
        (r.1, set :: r.2)
    else (0, [])

/-- int check_memset(void* f(), int unaligned), lines 236-249, over an
abstract fill function f taking a destination offset into the 4096-byte
buffer, the fill value and a length, and transforming the buffer. -/
def check_memset (f : Nat → Int → Nat → Mem → Mem) (u : Nat) (m : Mem) :
    Nat × List Int :=
  checkAux f u 129 m 0

/-- Reference description of the verifier, following the specification's
words for a chosen list of fill values: process each value in order, fill,
scan, stop at the first mismatch with its index plus one, else return 0. -/
def checkRef (f : Nat → Int → Nat → Mem → Mem) (u : Nat) :
    Mem → List Int → Nat × List Int
  | _, [] => (0, [])
  | m, set :: rest =>
    let m1 := f u set (4096 - 2 * u) m
    match scanFirst m1 set u (4096 - 2 * u) with
    | some i => (i + 1, [set])
    | none =>
      let r := checkRef f u m1 rest
      (r.1, set :: r.2)

/-- The byte-by-byte filler as a memory transformer, used to drive the
verifier model. -/
def goodFill : Nat → Int → Nat → Mem → Mem :=
  fun s c sz m => applyWrites m (bytewise_memset s c sz).1

/-- Number of prologue bytes needed to bring address s up to the next
W-aligned address. -/
def gapFor (W s : Nat) : Nat := (W - s % W) % W

/-- Replication of byte b over k little-endian byte lanes. -/
def repl (b : Nat) : Nat → Nat
  | 0 => 0
  | k + 1 => b + 256 * repl b k

/-- Consecutive char values from s up to 127, the values the verifier
drives when started at s. -/
def charsFrom (s : Int) : List Int :=
  (List.range (128 - s.toNat)).map fun k : Nat => s + (k : Int)

/-! ### Trace infrastructure -/

theorem applyWrites_append (t1 t2 : List (Nat × Nat)) :
    ∀ m : Mem, applyWrites m (t1 ++ t2) = applyWrites (applyWrites m t1) t2 := by
  induction t1 with
  | nil => intro m; rfl
  | cons h t ih =>
    intro m
    obtain ⟨a, v⟩ := h
    simp only [List.cons_append, applyWrites]
    exact ih _

theorem byteStores_length (x : Nat) :
    ∀ n p : Nat, (byteStores p x n).length = n := by
  intro n
  induction n with
  | zero => intro p; rfl
  | succ n ih => intro p; simp [byteStores, ih]

theorem byteStores_add (x : Nat) :
    ∀ a b p : Nat,
      byteStores p x (a + b) = byteStores p x a ++ byteStores (p + a) x b := by
  intro a
  induction a with
  | zero => intro b p; simp [byteStores]
  | succ a ih =>
    intro b p
    have h1 : a + 1 + b = (a + b) + 1 := by omega
    rw [h1]
    simp only [byteStores, List.cons_append, ih b (p + 1)]
    have h2 : p + 1 + a = p + (a + 1) := by omega
    rw [h2]

theorem byteStores_eq_range_map (x : Nat) :
    ∀ n p : Nat, byteStores p x n = (List.range n).map fun i => (p + i, x) := by
  intro n
  induction n with
  | zero => intro p; rfl
  | succ n ih =>
    intro p
    rw [List.range_succ_eq_map]
    simp only [byteStores, List.map_cons, Nat.add_zero, ih (p + 1), List.map_map]
    refine congrArg _ ?_
    apply List.map_congr_left
    intro a _
    simp only [Function.comp_apply]
    refine congrArg (fun z => (z, x)) ?_
    omega

theorem applyWrites_byteStores (x : Nat) :
    ∀ (n p : Nat) (m : Mem) (a : Nat),
      applyWrites m (byteStores p x n) a =
        if p ≤ a ∧ a < p + n then x else m a := by
  intro n
  induction n with
  | zero =>
    intro p m a
    rw [if_neg (by omega)]
    rfl
  | succ n ih =>
    intro p m a
    simp only [byteStores, applyWrites]
    rw [ih (p + 1) (writeByte m p x) a]
    simp only [writeByte]
    split_ifs with h1 h2 h3 h4 <;> first | rfl | omega

theorem wordWrite_length (p W x : Nat) : (wordWrite p W x).length = W := by
  simp [wordWrite]

theorem wordStores_length (W x : Nat) :
    ∀ n p : Nat, (wordStores p W x n).length = W * n := by
  intro n
  induction n with
  | zero => intro p; simp [wordStores]
  | succ n ih =>
    intro p
    simp only [wordStores, List.length_append, wordWrite_length, ih (p + W)]
    ring

theorem wordWrite_uniform (W x b : Nat)
    (h : ∀ j, j < W → (x >>> (8 * j)) % 256 = b) (p : Nat) :
    wordWrite p W x = byteStores p b W := by
  rw [wordWrite, byteStores_eq_range_map]
  apply List.map_congr_left
  intro j hj
  rw [List.mem_range] at hj
  rw [h j hj]

theorem wordStores_uniform (W x b : Nat)
    (h : ∀ j, j < W → (x >>> (8 * j)) % 256 = b) :
    ∀ n p : Nat, wordStores p W x n = byteStores p b (W * n) := by
  intro n
  induction n with
  | zero => intro p; simp [wordStores, byteStores]
  | succ n ih =>
    intro p
    have h1 : W * (n + 1) = W + W * n := by ring
    rw [wordStores, h1, byteStores_add, wordWrite_uniform W x b h p, ih (p + W)]

/-! ### Replicated-byte arithmetic -/

theorem repl_lt (b : Nat) (hb : b < 256) : ∀ k, repl b k < 256 ^ k := by
  intro k
  induction k with
  | zero => simp [repl]
  | succ k ih =>
    rw [repl, pow_succ]
    omega

theorem repl_add (b : Nat) : ∀ m k, repl b (m + k) = repl b m + 256 ^ m * repl b k := by
  intro m
  induction m with
  | zero => intro k; simp [repl]
  | succ m ih =>
    intro k
    have h1 : m + 1 + k = (m + k) + 1 := by omega
    rw [h1, repl, ih k, repl, pow_succ]
    ring

theorem repl_lane (b : Nat) (hb : b < 256) :
    ∀ k j, j < k → (repl b k >>> (8 * j)) % 256 = b := by
  intro k j hj
  have hsplit : repl b k = repl b j + 256 ^ j * repl b (k - j) := by
    have h1 : k = j + (k - j) := by omega
    conv_lhs => rw [h1]
    exact repl_add b j (k - j)
  have hpow : (2 : Nat) ^ (8 * j) = 256 ^ j := by
    rw [pow_mul]
    norm_num
  rw [Nat.shiftRight_eq_div_pow, hpow, hsplit,
    Nat.add_mul_div_left _ _ (Nat.pos_pow_of_pos j (by norm_num)),
    Nat.div_eq_of_lt (repl_lt b hb j), Nat.zero_add]
  obtain ⟨t, ht⟩ : ∃ t, k - j = t + 1 := ⟨k - j - 1, by omega⟩
  rw [ht, repl, Nat.add_mul_mod_self_left, Nat.mod_eq_of_lt hb]

theorem lor_shift_eq_add (a b k : Nat) (h : a < 2 ^ k) :
    a ||| (b <<< k) = a + b * 2 ^ k := by
  calc a ||| b <<< k = a ||| 2 ^ k * b := by rw [Nat.shiftLeft_eq, Nat.mul_comm]
    _ = 2 ^ k * b ||| a := Nat.lor_comm _ _
    _ = 2 ^ k * b + a := (Nat.mul_add_lt_is_or h b).symm
    _ = a + b * 2 ^ k := by ring

theorem mask8_lt (c : Int) : mask8 c < 256 := by
  have h1 : 0 ≤ c % 256 := Int.emod_nonneg c (by norm_num)
  have h2 : c % 256 < 256 := Int.emod_lt_of_pos c (by norm_num)
  simp only [mask8]
  omega

theorem pat32_eq_repl (c : Int) : pat32 c = repl (mask8 c) 4 := by
  have hb := mask8_lt c
  set b := mask8 c with hbdef
  have h8 : b < 2 ^ 8 := by norm_num; omega
  have s1 : (b <<< 8) % 2 ^ 32 = b <<< 8 := by
    apply Nat.mod_eq_of_lt
    rw [Nat.shiftLeft_eq]
    norm_num
    omega
  have e1 : b ||| (b <<< 8) = repl b 2 := by
    rw [lor_shift_eq_add b b 8 h8]
    simp [repl]
    ring
  have hr2 : repl b 2 < 2 ^ 16 := by
    have := repl_lt b hb 2
    calc repl b 2 < 256 ^ 2 := this
      _ ≤ 2 ^ 16 := by norm_num
  have s2 : repl b 2 % 2 ^ 32 = repl b 2 := by
    apply Nat.mod_eq_of_lt
    calc repl b 2 < 2 ^ 16 := hr2
      _ ≤ 2 ^ 32 := by norm_num
  have s3 : (repl b 2 <<< 16) % 2 ^ 32 = repl b 2 <<< 16 := by
    apply Nat.mod_eq_of_lt
    rw [Nat.shiftLeft_eq]
    norm_num
    omega
  have e2 : repl b 2 ||| (repl b 2 <<< 16) = repl b 4 := by
    rw [lor_shift_eq_add (repl b 2) (repl b 2) 16 hr2]
    have h4 : (4 : Nat) = 2 + 2 := by norm_num
    rw [h4, repl_add b 2 2]
    norm_num
    ring
  have s4 : repl b 4 % 2 ^ 32 = repl b 4 := by
    apply Nat.mod_eq_of_lt
    calc repl b 4 < 256 ^ 4 := repl_lt b hb 4
      _ ≤ 2 ^ 32 := by norm_num
  simp only [pat32, ← hbdef]
  rw [s1, e1, s2, s3, e2, s4]

/-! ### The generic pattern-word doubling loop -/

theorem patLoop_repl (b : Nat) (hb : b < 256) (e : Nat) :
    ∀ fuel i, 3 ≤ i → i ≤ e → e - i ≤ fuel →
      patLoop (2 ^ e) fuel (repl b (2 ^ (i - 3))) i = (repl b (2 ^ (e - 3)), e) := by
  intro fuel
  induction fuel with
  | zero =>
    intro i h3 hie hfe
    have hi : i = e := by omega
    subst hi
    rfl
  | succ fuel ih =>
    intro i h3 hie hfe
    by_cases hlt : i < e
    · have hguard : (2 : Nat) ^ i < 2 ^ e := Nat.pow_lt_pow_right (by norm_num) hlt
      have hk8 : 8 * 2 ^ (i - 3) = 2 ^ i := by
        rw [show (8 : Nat) = 2 ^ 3 by norm_num, ← pow_add]
        congr 1
        omega
      have h256k : (256 : Nat) ^ 2 ^ (i - 3) = 2 ^ 2 ^ i := by
        rw [show (256 : Nat) = 2 ^ 8 by norm_num, ← pow_mul, hk8]
      have hx : repl b (2 ^ (i - 3)) < 2 ^ 2 ^ i :=
        h256k ▸ repl_lt b hb (2 ^ (i - 3))
      have hpp : (2 : Nat) ^ 2 ^ i * 2 ^ 2 ^ i = 2 ^ 2 ^ (i + 1) := by
        rw [← pow_add]
        congr 1
        rw [pow_succ]
        omega
      have hle : (2 : Nat) ^ 2 ^ (i + 1) ≤ 2 ^ 2 ^ e :=
        Nat.pow_le_pow_right (by norm_num)
          (Nat.pow_le_pow_right (by norm_num) (by omega))
      have hship : (repl b (2 ^ (i - 3)) <<< 2 ^ i) % 2 ^ 2 ^ e =
          repl b (2 ^ (i - 3)) <<< 2 ^ i := by
        apply Nat.mod_eq_of_lt
        rw [Nat.shiftLeft_eq]
        calc repl b (2 ^ (i - 3)) * 2 ^ 2 ^ i < 2 ^ 2 ^ i * 2 ^ 2 ^ i :=
              (Nat.mul_lt_mul_right (Nat.two_pow_pos _)).mpr hx
          _ = 2 ^ 2 ^ (i + 1) := hpp
          _ ≤ 2 ^ 2 ^ e := hle
      have hlor : repl b (2 ^ (i - 3)) ||| (repl b (2 ^ (i - 3)) <<< 2 ^ i) =
          repl b (2 * 2 ^ (i - 3)) := by
        rw [lor_shift_eq_add _ _ _ hx, two_mul, repl_add, h256k]
        ring
      have hk2 : 2 * 2 ^ (i - 3) = 2 ^ (i + 1 - 3) := by
        calc 2 * 2 ^ (i - 3) = 2 ^ (i - 3 + 1) := by rw [pow_succ]; ring
          _ = 2 ^ (i + 1 - 3) := by congr 1; omega
      have hmod2 : repl b (2 * 2 ^ (i - 3)) % 2 ^ 2 ^ e =
          repl b (2 * 2 ^ (i - 3)) := by
        apply Nat.mod_eq_of_lt
        calc repl b (2 * 2 ^ (i - 3)) < 256 ^ (2 * 2 ^ (i - 3)) :=
              repl_lt b hb _
          _ = 2 ^ (8 * (2 * 2 ^ (i - 3))) := by
              rw [show (256 : Nat) = 2 ^ 8 by norm_num, ← pow_mul]
          _ = 2 ^ 2 ^ (i + 1) := by
              congr 1
              rw [show 8 * (2 * 2 ^ (i - 3)) = 2 * (8 * 2 ^ (i - 3)) by ring, hk8,
                pow_succ]
              omega
          _ ≤ 2 ^ 2 ^ e := hle
      simp only [patLoop]
      rw [if_pos hguard, hship, hlor, hmod2, hk2]
      exact ih (i + 1) (by omega) (by omega) (by omega)
    · have hi : i = e := by omega
      subst hi
      simp [patLoop]

theorem patWord_eq (c : Int) (e : Nat) (he : 3 ≤ e) :
    patWord (2 ^ e) (mask8 c) 3 = (repl (mask8 c) (2 ^ (e - 3)), e) := by
  have h0 : repl (mask8 c) (2 ^ (3 - 3)) = mask8 c := by simp [repl]
  rw [patWord]
  conv_lhs => rw [← h0]
  exact patLoop_repl (mask8 c) (mask8_lt c) e (2 ^ e) 3 (by omega) he
    (by have := Nat.lt_two_pow e; omega)

theorem patWord_lane (c : Int) (e j : Nat) (he : 3 ≤ e) (hj : j < 2 ^ (e - 3)) :
    ((patWord (2 ^ e) (mask8 c) 3).1 >>> (8 * j)) % 256 = mask8 c := by
  rw [patWord_eq c e he]
  exact repl_lane (mask8 c) (mask8_lt c) _ j hj

theorem pat32_lane (c : Int) (j : Nat) (hj : j < 4) :
    ((pat32 c) >>> (8 * j)) % 256 = mask8 c := by
  rw [pat32_eq_repl]
  exact repl_lane (mask8 c) (mask8_lt c) 4 j hj

/-! ### The prologue loop -/

theorem gapFor_aligned (W s : Nat) (h : s % W = 0) : gapFor W s = 0 := by
  rcases Nat.eq_zero_or_pos W with h0 | hpos
  · subst h0
    simp only [Nat.mod_zero] at h
    subst h
    rfl
  · simp only [gapFor, h, Nat.sub_zero, Nat.mod_self]

theorem two_le_of_mod_ne (W s : Nat) (h : s % W ≠ 0) (hW : 0 < W) : 2 ≤ W := by
  rcases Nat.lt_or_ge W 2 with h2 | h2
  · exfalso
    have hW1 : W = 1 := by omega
    subst hW1
    simp [Nat.mod_one] at h
  · exact h2

theorem gapFor_of_ne (W s : Nat) (h : s % W ≠ 0) (hW : 0 < W) :
    gapFor W s = W - s % W := by
  have hlt : s % W < W := Nat.mod_lt _ hW
  simp only [gapFor]
  exact Nat.mod_eq_of_lt (by omega)

theorem gapFor_succ (W s : Nat) (h : s % W ≠ 0) :
    gapFor W (s + 1) = gapFor W s - 1 := by
  rcases Nat.eq_zero_or_pos W with h0 | hpos
  · subst h0
    simp only [gapFor, Nat.mod_zero]
    omega
  · have hlt : s % W < W := Nat.mod_lt _ hpos
    have hW2 : 2 ≤ W := two_le_of_mod_ne W s h hpos
    have h1W : 1 % W = 1 := Nat.mod_eq_of_lt (by omega)
    have hm : (s + 1) % W = (s % W + 1) % W := by
      conv_lhs => rw [Nat.add_mod, h1W]
    by_cases hc : s % W + 1 < W
    · have hm2 : (s + 1) % W = s % W + 1 := by rw [hm, Nat.mod_eq_of_lt hc]
      simp only [gapFor, hm2]
      rw [Nat.mod_eq_of_lt (show W - (s % W + 1) < W by omega),
        Nat.mod_eq_of_lt (show W - s % W < W by omega)]
      omega
    · have hm2 : (s + 1) % W = 0 := by
        rw [hm, show s % W + 1 = W by omega, Nat.mod_self]
      simp only [gapFor, hm2, Nat.sub_zero, Nat.mod_self]
      rw [Nat.mod_eq_of_lt (show W - s % W < W by omega)]
      omega

theorem prologue_reach (w W xx : Nat) (hW : 0 < W) :
    ∀ sz s, gapFor W s ≤ sz →
      prologue w W s xx sz =
        (byteStores s xx (gapFor W s), s + gapFor W s, sz - gapFor W s) := by
  intro sz
  induction sz with
  | zero =>
    intro s hg
    by_cases h : s % W = 0
    · simp only [prologue, if_pos h, gapFor_aligned W s h, byteStores]
      simp
    · exfalso
      have hlt : s % W < W := Nat.mod_lt _ hW
      have hgap := gapFor_of_ne W s h hW
      omega
  | succ sz ih =>
    intro s hg
    by_cases h : s % W = 0
    · simp only [prologue, if_pos h, gapFor_aligned W s h, byteStores]
      simp
    · have hlt : s % W < W := Nat.mod_lt _ hW
      have hgap := gapFor_of_ne W s h hW
      have hsucc := gapFor_succ W s h
      have hrec := ih (s + 1) (by omega)
      simp only [prologue, if_neg h]
      rw [hrec, hsucc]
      obtain ⟨g, hgdef⟩ : ∃ g, gapFor W s = g + 1 := ⟨gapFor W s - 1, by omega⟩
      rw [hgdef]
      simp only [Nat.add_sub_cancel]
      rw [show s + 1 + g = s + (g + 1) by omega,
        show sz - g = sz + 1 - (g + 1) by omega]
      rfl

theorem prologue_wrap (w W xx : Nat) (hW : 0 < W) :
    ∀ sz s, s % W ≠ 0 → sz < W - s % W →
      prologue w W s xx sz = (byteStores s xx sz, s + sz, 2 ^ w - 1) := by
  intro sz
  induction sz with
  | zero =>
    intro s h _
    simp only [prologue, if_neg h, byteStores]
    simp
  | succ sz ih =>
    intro s h hlt
    have hmodlt : s % W < W := Nat.mod_lt _ hW
    have hW2 : 2 ≤ W := two_le_of_mod_ne W s h hW
    have h1W : 1 % W = 1 := Nat.mod_eq_of_lt (by omega)
    have hm : (s + 1) % W = s % W + 1 := by
      rw [Nat.add_mod, h1W, Nat.mod_eq_of_lt (show s % W + 1 < W by omega)]
    have hrec := ih (s + 1) (by rw [hm]; omega) (by rw [hm]; omega)
    simp only [prologue, if_neg h]
    rw [hrec, show s + 1 + sz = s + (sz + 1) by omega]
    rfl

/-! ### Equivalence of the word-wise fillers with the byte-wise reference -/

theorem wordwise_32_memset_eq (s : Nat) (c : Int) (sz : Nat) (h : sz % 4 = 0) :
    wordwise_32_memset s c sz = some (bytewise_memset s c sz) := by
  have hdiv : sz >>> 2 = sz / 4 := by
    rw [Nat.shiftRight_eq_div_pow]
  rw [wordwise_32_memset, if_pos h, bytewise_memset,
    wordStores_uniform 4 (pat32 c) (mask8 c) (fun j hj => pat32_lane c j hj)
      (sz >>> 2) s, hdiv, Nat.mul_div_cancel' (Nat.dvd_of_mod_eq_zero h)]

theorem wordwise_memset_eq (e s : Nat) (c : Int) (sz : Nat) (he : 3 ≤ e)
    (h : sz % 2 ^ (e - 3) = 0) :
    wordwise_memset (2 ^ e) s c sz = some (bytewise_memset s c sz) := by
  have hpw := patWord_eq c e he
  have hdiv : sz >>> (e - 3) = sz / 2 ^ (e - 3) := Nat.shiftRight_eq_div_pow sz (e - 3)
  simp only [wordwise_memset, hpw]
  rw [if_pos h, bytewise_memset,
    wordStores_uniform (2 ^ (e - 3)) (repl (mask8 c) (2 ^ (e - 3))) (mask8 c)
      (fun j hj => repl_lane (mask8 c) (mask8_lt c) _ j hj) _ s, hdiv,
    Nat.mul_div_cancel' (Nat.dvd_of_mod_eq_zero h)]

theorem wordwise_32_unaligned_memset_eq (w s : Nat) (c : Int) (sz : Nat)
    (h : gapFor 4 s ≤ sz) :
    wordwise_32_unaligned_memset w s c sz = bytewise_memset s c sz := by
  have hpr := prologue_reach w 4 (mask8 c) (by norm_num) sz s h
  have hdiv : (sz - gapFor 4 s) >>> 2 = (sz - gapFor 4 s) / 4 := by
    rw [Nat.shiftRight_eq_div_pow]
  simp only [wordwise_32_unaligned_memset, hpr, hdiv]
  rw [wordStores_uniform 4 (pat32 c) (mask8 c) (fun j hj => pat32_lane c j hj)]
  rw [List.append_assoc, ← byteStores_add, ← byteStores_add]
  rw [bytewise_memset]
  have hsum : gapFor 4 s + (4 * ((sz - gapFor 4 s) / 4) + (sz - gapFor 4 s) % 4) =
      sz := by
    have := Nat.div_add_mod (sz - gapFor 4 s) 4
    omega
  rw [hsum]

theorem wordwise_unaligned_memset_eq (w e s : Nat) (c : Int) (sz : Nat)
    (he : 3 ≤ e) (h : gapFor (2 ^ (e - 3)) s ≤ sz) :
    wordwise_unaligned_memset w (2 ^ e) s c sz = bytewise_memset s c sz := by
  have hpw := patWord_eq c e he
  have hpr := prologue_reach w (2 ^ (e - 3)) (mask8 c) (Nat.two_pow_pos _) sz s h
  have hdiv : (sz - gapFor (2 ^ (e - 3)) s) >>> (e - 3) =
      (sz - gapFor (2 ^ (e - 3)) s) / 2 ^ (e - 3) :=
    Nat.shiftRight_eq_div_pow _ (e - 3)
  simp only [wordwise_unaligned_memset, hpw, hpr, hdiv]
  rw [wordStores_uniform (2 ^ (e - 3)) (repl (mask8 c) (2 ^ (e - 3))) (mask8 c)
    (fun j hj => repl_lane (mask8 c) (mask8_lt c) _ j hj)]
  rw [List.append_assoc, ← byteStores_add, ← byteStores_add]
  rw [bytewise_memset]
  have hsum : gapFor (2 ^ (e - 3)) s +
      (2 ^ (e - 3) * ((sz - gapFor (2 ^ (e - 3)) s) / 2 ^ (e - 3)) +
        (sz - gapFor (2 ^ (e - 3)) s) % 2 ^ (e - 3)) = sz := by
    have := Nat.div_add_mod (sz - gapFor (2 ^ (e - 3)) s) (2 ^ (e - 3))
    omega
  rw [hsum]

/-! ### The verifier loop -/

theorem charsFrom_cons (s : Int) (h0 : 0 ≤ s) (h127 : s ≤ 127) :
    charsFrom s = s :: charsFrom (s + 1) := by
  have ht1 : (s + 1).toNat = s.toNat + 1 := by omega
  have hr : 128 - s.toNat = (127 - s.toNat) + 1 := by omega
  have hn : 128 - (s.toNat + 1) = 127 - s.toNat := by omega
  have hmap : ((List.range (127 - s.toNat)).map Nat.succ).map
        (fun k : Nat => s + (k : Int)) =
      (List.range (127 - s.toNat)).map fun k : Nat => s + 1 + (k : Int) := by
    rw [List.map_map]
    apply List.map_congr_left
    intro a _
    simp only [Function.comp_apply, Nat.succ_eq_add_one]
    push_cast
    ring
  calc charsFrom s
      = (List.range ((127 - s.toNat) + 1)).map (fun k : Nat => s + (k : Int)) := by
        rw [charsFrom, hr]
    _ = ((0 :: (List.range (127 - s.toNat)).map Nat.succ).map
          fun k : Nat => s + (k : Int)) := by
        rw [List.range_succ_eq_map]
    _ = (s + ((0 : Nat) : Int)) ::
          (((List.range (127 - s.toNat)).map Nat.succ).map
            fun k : Nat => s + (k : Int)) := by
        rw [List.map_cons]
    _ = s :: (List.range (127 - s.toNat)).map (fun k : Nat => s + 1 + (k : Int)) := by
        rw [hmap]
        norm_num
    _ = s :: charsFrom (s + 1) := by
        rw [charsFrom, ht1, hn]

theorem charsFrom_zero : charsFrom 0 = (List.range 128).map fun k : Nat => (k : Int) := by
  simp only [charsFrom, Int.toNat_zero, Nat.sub_zero]
  apply List.map_congr_left
  intro a _
  omega

theorem charsFrom_after : charsFrom 128 = [] := by
  simp [charsFrom]

theorem checkAux_eq_checkRef (f : Nat → Int → Nat → Mem → Mem) (u : Nat) :
    ∀ fuel (s : Int) (m : Mem), 0 ≤ s → s ≤ 127 → 128 - s.toNat < fuel →
      checkAux f u fuel m s = checkRef f u m (charsFrom s) := by
  intro fuel
  induction fuel with
  | zero =>
    intro s m h0 h127 hf
    omega
  | succ fuel ih =>
    intro s m h0 h127 hf
    have hmod : s % 4294967296 = s := Int.emod_eq_of_lt h0 (by omega)
    have hguard : (s % 4294967296).toNat ≤ 255 := by rw [hmod]; omega
    rw [charsFrom_cons s h0 h127]
    simp only [checkAux, checkRef, if_pos hguard]
    rcases hsc : scanFirst (f u s (4096 - 2 * u) m) s u (4096 - 2 * u) with _ | i
    · simp only [hsc]
      by_cases hs : s = 127
      · subst hs
        obtain ⟨k, hk⟩ : ∃ k, fuel = k + 1 := ⟨fuel - 1, by omega⟩
        subst hk
        have hcs : charSucc (127 : Int) = -128 := by decide
        have hneg : ¬ (((-128 : Int) % 4294967296).toNat ≤ 255) := by decide
        rw [hcs, show (127 : Int) + 1 = 128 by norm_num, charsFrom_after]
        simp only [checkAux, checkRef, if_neg hneg]
      · have hcs : charSucc s = s + 1 := by simp [charSucc, hs]
        rw [hcs, ih (s + 1) (f u s (4096 - 2 * u) m) (by omega) (by omega)
          (by omega)]
    · simp only [hsc]

theorem scanAux_none (m : Mem) (set : Int) :
    ∀ n i, (∀ j, i ≤ j → j < i + n → charVal (m j) = set) →
      scanAux m set n i = none := by
  intro n
  induction n with
  | zero => intro i _; rfl
  | succ n ih =>
    intro i h
    have h0 : charVal (m i) = set := h i (le_refl i) (by omega)
    simp only [scanAux, h0]
    rw [if_neg (by simp)]
    exact ih (i + 1) fun j hj1 hj2 => h j (by omega) (by omega)

theorem scanFirst_none (m : Mem) (set : Int) (lo stop : Nat)
    (h : ∀ j, lo ≤ j → j < stop → charVal (m j) = set) :
    scanFirst m set lo stop = none := by
  apply scanAux_none
  intro j hj1 hj2
  exact h j hj1 (by omega)

theorem charVal_mask8 (set : Int) (h0 : 0 ≤ set) (h127 : set ≤ 127) :
    charVal (mask8 set) = set := by
  have hm : set % 256 = set := Int.emod_eq_of_lt h0 (by omega)
  simp only [mask8, hm, charVal]
  rw [if_pos (by omega)]
  omega

theorem goodFill_scan_none (u : Nat) (set : Int) (m : Mem)
    (h0 : 0 ≤ set) (h127 : set ≤ 127) (L : Nat) :
    scanFirst (goodFill u set L m) set u L = none := by
  apply scanFirst_none
  intro j hj1 hj2
  simp only [goodFill, bytewise_memset]
  rw [applyWrites_byteStores (mask8 set) L u m j, if_pos (by omega)]
  exact charVal_mask8 set h0 h127

theorem checkRef_all_none (f : Nat → Int → Nat → Mem → Mem) (u : Nat) :
    ∀ (sets : List Int) (m : Mem),
      (∀ set ∈ sets, ∀ m2 : Mem,
        scanFirst (f u set (4096 - 2 * u) m2) set u (4096 - 2 * u) = none) →
      checkRef f u m sets = (0, sets) := by
  intro sets
  induction sets with
  | nil => intro m _; rfl
  | cons set rest ih =>
    intro m h
    have hset := h set (List.mem_cons_self set rest) m
    simp only [checkRef, hset]
    rw [ih (f u set (4096 - 2 * u) m)
      fun s hs m2 => h s (List.mem_cons_of_mem set hs) m2]

theorem mod_mul_pred (M N : Nat) (hM : 1 ≤ M) (hN : 1 ≤ N) :
    (M * N - 1) % M = M - 1 := by
  obtain ⟨n, hn⟩ : ∃ n, N = n + 1 := ⟨N - 1, by omega⟩
  subst hn
  rw [show M * (n + 1) = M * n + M by ring, Nat.add_sub_assoc hM (M * n),
    Nat.add_comm (M * n) (M - 1), Nat.add_mul_mod_self_left,
    Nat.mod_eq_of_lt (by omega)]

/-! ### Claims -/

/-- C1: the claim states that the unaligned fillers accept any destination
and any length, write the masked byte into exactly the requested region and
return dest.  The code violates this: with size_t width w = 4 bits, the call
wordwise_32_unaligned_memset at misaligned destination 1 with c = 65 and
sz = 0 must write nothing, yet the prologue's post-decrement wraps the
counter and the body then stores the fill byte far outside the (empty)
region; address 5 receives 65. -/
theorem claim_C1 :
    applyWrites (fun _ => 0) ((wordwise_32_unaligned_memset 4 1 65 0).1) 5 = 65 ∧
    (5 < 1 ∨ 1 + 0 ≤ 5) := by
  exact ⟨by decide, by decide⟩

/-- C2: the claim states that when sz is smaller than the distance to the
next alignment boundary, the prologue alone consumes the request and no
body or epilogue store is executed.  The code violates the second half:
with w = 4, destination 1 (gap 3) and sz = 2 the prologue performs exactly
the 2 requested stores but exits with the counter wrapped to 15, after
which the body performs 3 word stores (12 bytes) and the epilogue 3 byte
stores: the full trace has 17 stores, not 2. -/
theorem claim_C2 :
    prologue 4 4 1 (mask8 7) 2 = ([(1, 7), (2, 7)], 3, 15) ∧
    2 < gapFor 4 1 ∧
    (wordwise_32_unaligned_memset 4 1 7 2).1.length = 2 + 12 + 3 := by
  exact ⟨by decide, by decide, by decide⟩

/-- C3 (amended): the verifier iterates over the char values 0..127 only
(the signed char counter wraps past 127 and the unsigned-compare guard
then ends the loop), calling the fill function on the buffer at offset u
with length 4096 - 2u and scanning indices u up to 4096 - 2u, returning
one plus the first mismatching index, and 0 when all 128 values pass;
it only reports, it cannot fail in any other way: the imperative loop
equals the straightforward iteration checkRef over exactly the value list
0..127. -/
theorem claim_C3 (f : Nat → Int → Nat → Mem → Mem) (u : Nat) (m : Mem) :
    check_memset f u m =
      checkRef f u m ((List.range 128).map fun k : Nat => (k : Int)) := by
  rw [check_memset,
    checkAux_eq_checkRef f u 129 0 m (by norm_num) (by norm_num) (by norm_num),
    charsFrom_zero]

/-- C3 counterexample: the claim says the verifier iterates over every
byte value 0..255 and calls the fill function for each; driving the model
with the correct byte-wise filler shows the value 255 is never driven. -/
theorem claim_C3_cex :
    (255 : Int) ∉ (check_memset goodFill 0 (fun _ => 0)).2 := by
  have hpass : ∀ set ∈ charsFrom 0, ∀ m2 : Mem,
      scanFirst (goodFill 0 set (4096 - 2 * 0) m2) set 0 (4096 - 2 * 0) = none := by
    intro set hset m2
    rw [charsFrom_zero] at hset
    simp only [List.mem_map, List.mem_range] at hset
    obtain ⟨k, hk, hks⟩ := hset
    exact goodFill_scan_none 0 set m2 (by omega) (by omega) _
  rw [check_memset,
    checkAux_eq_checkRef goodFill 0 129 0 (fun _ => 0) (by norm_num)
      (by norm_num) (by norm_num),
    checkRef_all_none goodFill 0 (charsFrom 0) (fun _ => 0) hpass,
    charsFrom_zero]
  simp only [List.mem_map, List.mem_range, not_exists]
  intro k
  omega

/-- C4 (amended): each word-wise filler produces exactly the same store
trace and return value as bytewise_memset under its precondition: a length
that is a multiple of the word width for the two aligned fillers, and, for
the two unaligned fillers, a destination that is aligned or a length at
least the distance to the next alignment boundary (without the latter,
added because of the wrap bug exhibited by the counterexample, the
equivalence fails). -/
theorem claim_C4 (w e s : Nat) (c : Int) (sz : Nat) :
    (sz % 4 = 0 → wordwise_32_memset s c sz = some (bytewise_memset s c sz)) ∧
    (3 ≤ e → sz % 2 ^ (e - 3) = 0 →
      wordwise_memset (2 ^ e) s c sz = some (bytewise_memset s c sz)) ∧
    (gapFor 4 s ≤ sz →
      wordwise_32_unaligned_memset w s c sz = bytewise_memset s c sz) ∧
    (3 ≤ e → gapFor (2 ^ (e - 3)) s ≤ sz →
      wordwise_unaligned_memset w (2 ^ e) s c sz = bytewise_memset s c sz) :=
  ⟨fun h => wordwise_32_memset_eq s c sz h,
   fun he h => wordwise_memset_eq e s c sz he h,
   fun h => wordwise_32_unaligned_memset_eq w s c sz h,
   fun he h => wordwise_unaligned_memset_eq w e s c sz he h⟩

/-- C4 witness: the four equivalences at w = 4, wordsize 32, destination 2,
c = -1, sz = 8. -/
theorem claim_C4_witness :
    (8 % 4 = 0 ∧ wordwise_32_memset 2 (-1) 8 = some (bytewise_memset 2 (-1) 8)) ∧
    (3 ≤ 5 ∧ 8 % 2 ^ (5 - 3) = 0 ∧
      wordwise_memset (2 ^ 5) 2 (-1) 8 = some (bytewise_memset 2 (-1) 8)) ∧
    (gapFor 4 2 ≤ 8 ∧
      wordwise_32_unaligned_memset 4 2 (-1) 8 = bytewise_memset 2 (-1) 8) ∧
    (3 ≤ 5 ∧ gapFor (2 ^ (5 - 3)) 2 ≤ 8 ∧
      wordwise_unaligned_memset 4 (2 ^ 5) 2 (-1) 8 = bytewise_memset 2 (-1) 8) :=
  ⟨⟨by decide, (claim_C4 4 5 2 (-1) 8).1 (by decide)⟩,
   ⟨by decide, by decide, (claim_C4 4 5 2 (-1) 8).2.1 (by decide) (by decide)⟩,
   ⟨by decide, (claim_C4 4 5 2 (-1) 8).2.2.1 (by decide)⟩,
   ⟨by decide, by decide,
     (claim_C4 4 5 2 (-1) 8).2.2.2 (by decide) (by decide)⟩⟩

/-- C4 counterexample: with no precondition the equivalence is false: at
misaligned destination 1 with sz = 0 (w = 4) the unaligned filler's result
differs from the byte-wise reference, which stores nothing. -/
theorem claim_C4_cex :
    wordwise_32_unaligned_memset 4 1 65 0 ≠ bytewise_memset 1 65 0 := by
  decide

/-- C5: every byte lane of the constructed pattern word equals the masked
fill byte, both for the fixed two-shift 32-bit construction and for the
generic doubling loop at any power-of-two word width 2 pow e with e at
least 3. -/
theorem claim_C5 (c : Int) (e j1 j2 : Nat) :
    (j1 < 4 → ((pat32 c) >>> (8 * j1)) % 256 = mask8 c) ∧
    (3 ≤ e → j2 < 2 ^ (e - 3) →
      ((patWord (2 ^ e) (mask8 c) 3).1 >>> (8 * j2)) % 256 = mask8 c) :=
  ⟨fun h => pat32_lane c j1 h, fun he hj => patWord_lane c e j2 he hj⟩

/-- C5 witness: lane 3 of the 32-bit pattern and lane 7 of the 64-bit
pattern for c = -100 (masked byte 156). -/
theorem claim_C5_witness :
    (3 < 4 ∧ ((pat32 (-100)) >>> (8 * 3)) % 256 = mask8 (-100)) ∧
    (3 ≤ 6 ∧ 7 < 2 ^ (6 - 3) ∧
      ((patWord (2 ^ 6) (mask8 (-100)) 3).1 >>> (8 * 7)) % 256 = mask8 (-100)) :=
  ⟨⟨by decide, (claim_C5 (-100) 6 3 7).1 (by decide)⟩,
   ⟨by decide, by decide, (claim_C5 (-100) 6 3 7).2 (by decide) (by decide)⟩⟩

/-- C6: bytewise_memset writes sz copies of the masked byte starting at
dest, one store per iteration with the cursor advancing by one, returns
dest, and requires no alignment or divisibility of dest or sz: the final
memory holds the masked byte exactly on the requested interval. -/
theorem claim_C6 (s : Nat) (c : Int) (sz : Nat) :
    (bytewise_memset s c sz).2 = s ∧
    (bytewise_memset s c sz).1 =
      (List.range sz).map (fun i => (s + i, mask8 c)) ∧
    ∀ (m : Mem) (a : Nat),
      applyWrites m (bytewise_memset s c sz).1 a =
        if s ≤ a ∧ a < s + sz then mask8 c else m a :=
  ⟨rfl, byteStores_eq_range_map (mask8 c) sz s,
   fun m a => applyWrites_byteStores (mask8 c) sz s m a⟩

/-- C7: the claim states that every filler with sz = 0 performs no store,
for every destination alignment.  The code violates it for the two
unaligned fillers at a misaligned destination: with w = 4 both traces hold
15 stores instead of none (prologue counter wrap, then 3 word stores and a
3-byte epilogue). -/
theorem claim_C7 :
    (wordwise_32_unaligned_memset 4 2 0 0).1.length = 15 ∧
    (wordwise_unaligned_memset 4 32 1 0 0).1.length = 15 ∧
    (bytewise_memset 1 0 0).1.length = 0 := by
  exact ⟨by decide, by decide, by decide⟩

/-- C8: masking law: every filler treats the fill value c exactly as it
treats c masked to its low 8 bits (the C expression c and 0xff equals
c modulo 256 on a two's-complement int): identical traces and identical
returned pointer, for out-of-range and negative c alike. -/
theorem claim_C8 (w wordsize s : Nat) (c : Int) (sz : Nat) :
    bytewise_memset s (c % 256) sz = bytewise_memset s c sz ∧
    wordwise_32_memset s (c % 256) sz = wordwise_32_memset s c sz ∧
    wordwise_memset wordsize s (c % 256) sz = wordwise_memset wordsize s c sz ∧
    wordwise_32_unaligned_memset w s (c % 256) sz =
      wordwise_32_unaligned_memset w s c sz ∧
    wordwise_unaligned_memset w wordsize s (c % 256) sz =
      wordwise_unaligned_memset w wordsize s c sz := by
  have hm : mask8 (c % 256) = mask8 c := by
    simp only [mask8, Int.emod_emod_of_dvd c (dvd_refl 256)]
  have hp : pat32 (c % 256) = pat32 c := by
    simp only [pat32, hm]
  refine ⟨?_, ?_, ?_, ?_, ?_⟩ <;>
    simp only [bytewise_memset, wordwise_32_memset, wordwise_memset,
      wordwise_32_unaligned_memset, wordwise_unaligned_memset, hm, hp]

/-- C9 (amended): boundary isolation: no filler modifies a byte outside
the requested interval, where a valid input for the two unaligned fillers
additionally requires (because of the wrap bug exhibited by the
counterexample) the destination to be aligned or the length to reach the
next alignment boundary; and in the concrete 4096-byte scenario the
generic unaligned filler over buffer offset 1, byte 0x41 and length 4094
leaves bytes 0 and 4095 unchanged and sets bytes 1..4094 to 0x41. -/
theorem claim_C9 (w e s : Nat) (c : Int) (sz : Nat) (m : Mem) (a : Nat)
    (hout : a < s ∨ s + sz ≤ a) :
    applyWrites m (bytewise_memset s c sz).1 a = m a ∧
    (∀ r, wordwise_32_memset s c sz = some r → applyWrites m r.1 a = m a) ∧
    (3 ≤ e → ∀ r, wordwise_memset (2 ^ e) s c sz = some r →
      applyWrites m r.1 a = m a) ∧
    (gapFor 4 s ≤ sz →
      applyWrites m ((wordwise_32_unaligned_memset w s c sz).1) a = m a) ∧
    (3 ≤ e → gapFor (2 ^ (e - 3)) s ≤ sz →
      applyWrites m ((wordwise_unaligned_memset w (2 ^ e) s c sz).1) a = m a) ∧
    applyWrites m ((wordwise_unaligned_memset w 32 1 65 4094).1) 0 = m 0 ∧
    applyWrites m ((wordwise_unaligned_memset w 32 1 65 4094).1) 4095 =
      m 4095 ∧
    ∀ b2, 1 ≤ b2 → b2 ≤ 4094 →
      applyWrites m ((wordwise_unaligned_memset w 32 1 65 4094).1) b2 = 65 := by
  have hbw : applyWrites m (bytewise_memset s c sz).1 a = m a := by
    rw [bytewise_memset, applyWrites_byteStores (mask8 c) sz s m a,
      if_neg (by omega)]
  have hscen : wordwise_unaligned_memset w 32 1 65 4094 =
      bytewise_memset 1 65 4094 := by
    rw [show (32 : Nat) = 2 ^ 5 by norm_num]
    exact wordwise_unaligned_memset_eq w 5 1 65 4094 (by norm_num) (by decide)
  have hm65 : mask8 65 = 65 := by decide
  refine ⟨hbw, ?_, ?_, ?_, ?_, ?_, ?_, ?_⟩
  · intro r hr
    by_cases h4 : sz % 4 = 0
    · rw [wordwise_32_memset_eq s c sz h4] at hr
      injection hr with hr2
      subst hr2
      exact hbw
    · rw [wordwise_32_memset, if_neg h4] at hr
      cases hr
  · intro he r hr
    by_cases hmod : sz % 2 ^ (e - 3) = 0
    · rw [wordwise_memset_eq e s c sz he hmod] at hr
      injection hr with hr2
      subst hr2
      exact hbw
    · simp only [wordwise_memset, patWord_eq c e he, if_neg hmod] at hr
      cases hr
  · intro hgap
    rw [wordwise_32_unaligned_memset_eq w s c sz hgap]
    exact hbw
  · intro he hgap
    rw [wordwise_unaligned_memset_eq w e s c sz he hgap]
    exact hbw
  · rw [hscen, bytewise_memset, applyWrites_byteStores (mask8 65) 4094 1 m 0,
      if_neg (by omega)]
  · rw [hscen, bytewise_memset, applyWrites_byteStores (mask8 65) 4094 1 m 4095,
      if_neg (by omega)]
  · intro b2 hb1 hb2
    rw [hscen, bytewise_memset, applyWrites_byteStores (mask8 65) 4094 1 m b2,
      if_pos (by omega), hm65]

/-- C9 witness: the frame property at w = 4, wordsize 32, destination 2,
c = 7, sz = 4, probing address 1 just below the region, together with the
guard bytes of the concrete 4096-byte scenario. -/
theorem claim_C9_witness :
    ((1 : Nat) < 2 ∨ 2 + 4 ≤ 1) ∧
    applyWrites (fun _ => 9) (bytewise_memset 2 7 4).1 1 = 9 ∧
    (gapFor 4 2 ≤ 4 ∧
      applyWrites (fun _ => 9) ((wordwise_32_unaligned_memset 4 2 7 4).1) 1 = 9) ∧
    applyWrites (fun _ => 9) ((wordwise_unaligned_memset 4 32 1 65 4094).1) 0 = 9 ∧
    applyWrites (fun _ => 9) ((wordwise_unaligned_memset 4 32 1 65 4094).1) 4095 = 9 ∧
    applyWrites (fun _ => 9) ((wordwise_unaligned_memset 4 32 1 65 4094).1) 77 = 65 :=
  have h := claim_C9 4 5 2 7 4 (fun _ => 9) 1 (by decide)
  ⟨by decide, h.1, ⟨by decide, h.2.2.2.1 (by decide)⟩, h.2.2.2.2.2.1,
    h.2.2.2.2.2.2.1, h.2.2.2.2.2.2.2 77 (by decide) (by decide)⟩

/-- C9 counterexample: for the unaligned fillers with unrestricted inputs
the claim fails: at misaligned destination 3 with sz = 0 (w = 4,
wordsize 32) address 7, far outside the empty region, is overwritten with
the fill byte. -/
theorem claim_C9_cex :
    applyWrites (fun _ => 0) ((wordwise_unaligned_memset 4 32 3 65 0).1) 7 = 65 ∧
    ((7 : Nat) < 3 ∨ 3 + 0 ≤ 7) := by
  exact ⟨by decide, by decide⟩

/-- C10: in both unaligned fillers the prologue post-decrements the size
counter on the test that exits the loop, so whenever the destination is
still misaligned when the remaining length reaches zero (any call with
sz smaller than the distance to the next W boundary), the loop exits with
the size_t counter wrapped to 2 pow w - 1, tail is then W - 1 and the body
performs (2 pow w - 1) >> log2 W word stores, as witnessed by the total
store count of the trace. -/
theorem claim_C10 (w e s : Nat) (c : Int) (sz : Nat) :
    (2 ≤ w → s % 4 ≠ 0 → sz < 4 - s % 4 →
      prologue w 4 s (mask8 c) sz =
        (byteStores s (mask8 c) sz, s + sz, 2 ^ w - 1) ∧
      (2 ^ w - 1) % 4 = 3 ∧
      (wordwise_32_unaligned_memset w s c sz).1.length =
        sz + 4 * ((2 ^ w - 1) >>> 2) + 3) ∧
    (3 ≤ e → e - 3 ≤ w → s % 2 ^ (e - 3) ≠ 0 →
      sz < 2 ^ (e - 3) - s % 2 ^ (e - 3) →
      prologue w (2 ^ (e - 3)) s (mask8 c) sz =
        (byteStores s (mask8 c) sz, s + sz, 2 ^ w - 1) ∧
      (2 ^ w - 1) % 2 ^ (e - 3) = 2 ^ (e - 3) - 1 ∧
      (wordwise_unaligned_memset w (2 ^ e) s c sz).1.length =
        sz + 2 ^ (e - 3) * ((2 ^ w - 1) >>> (e - 3)) + (2 ^ (e - 3) - 1)) := by
  constructor
  · intro hw h4 hlt
    have hpro := prologue_wrap w 4 (mask8 c) (by norm_num) sz s h4 hlt
    have h2w : (2 : Nat) ^ w = 4 * 2 ^ (w - 2) := by
      conv_lhs => rw [show w = 2 + (w - 2) by omega, pow_add]
      norm_num
    have htail : (2 ^ w - 1) % 4 = 3 := by
      rw [h2w]
      have := mod_mul_pred 4 (2 ^ (w - 2)) (by norm_num) (Nat.two_pow_pos _)
      omega
    refine ⟨hpro, htail, ?_⟩
    simp only [wordwise_32_unaligned_memset, hpro, List.length_append,
      byteStores_length, wordStores_length, htail]
  · intro he hew hmod hlt
    have hW : (0 : Nat) < 2 ^ (e - 3) := Nat.two_pow_pos _
    have hpro := prologue_wrap w (2 ^ (e - 3)) (mask8 c) hW sz s hmod hlt
    have h2w : (2 : Nat) ^ w = 2 ^ (e - 3) * 2 ^ (w - (e - 3)) := by
      rw [← pow_add]
      congr 1
      omega
    have htail : (2 ^ w - 1) % 2 ^ (e - 3) = 2 ^ (e - 3) - 1 := by
      rw [h2w]
      exact mod_mul_pred (2 ^ (e - 3)) (2 ^ (w - (e - 3))) hW (Nat.two_pow_pos _)
    refine ⟨hpro, htail, ?_⟩
    simp only [wordwise_unaligned_memset, patWord_eq c e he, hpro,
      List.length_append, byteStores_length, wordStores_length, htail]

/-- C10 witness: w = 4 (so the counter wraps to 15), destination 1,
sz = 0, generic word size 32: tail 3 and 3 body word stores for both
fillers. -/
theorem claim_C10_witness :
    (2 ≤ 4 ∧ 1 % 4 ≠ 0 ∧ 0 < 4 - 1 % 4 ∧ 3 ≤ 5 ∧ 5 - 3 ≤ 4 ∧
      1 % 2 ^ (5 - 3) ≠ 0 ∧ 0 < 2 ^ (5 - 3) - 1 % 2 ^ (5 - 3)) ∧
    prologue 4 4 1 (mask8 0) 0 = ([], 1, 15) ∧
    (2 ^ 4 - 1) % 4 = 3 ∧
    (wordwise_32_unaligned_memset 4 1 0 0).1.length =
      0 + 4 * ((2 ^ 4 - 1) >>> 2) + 3 ∧
    prologue 4 (2 ^ (5 - 3)) 1 (mask8 0) 0 = ([], 1, 15) ∧
    (wordwise_unaligned_memset 4 (2 ^ 5) 1 0 0).1.length =
      0 + 2 ^ (5 - 3) * ((2 ^ 4 - 1) >>> (5 - 3)) + (2 ^ (5 - 3) - 1) :=
  have h1 := (claim_C10 4 5 1 0 0).1 (by decide) (by decide) (by decide)
  have h2 := (claim_C10 4 5 1 0 0).2 (by decide) (by decide) (by decide)
    (by decide)
  ⟨by decide, h1.1, h1.2.1, h1.2.2, h2.1, h2.2.2⟩
